import Mathlib

/-!
Verification of the `diff-in-place` crate (`src/lib.rs`).

The crate provides one algorithm: `try_diff_in_place`, a single linear scan
over two equal-length arrays that reports each run of differing elements to a
caller-supplied fallible visitor, plus the infallible wrapper `diff_in_place`.

Embedding choices:
* Rust arrays `[T; N]` become Lean `List α` values; equal length is a
  hypothesis where a claim needs it.  The scan itself iterates over
  `self.iter().zip(other.iter())`, which `List.zip` models exactly.
* The visitor `FnMut(usize, &[T]) -> Result<(), R>` is a stateful closure; we
  model it by explicit state passing as `σ → Nat → List α → Except ε σ`, so a
  visitor can both record its invocations (in `σ`) and fail (in `ε`).
* `&other[run_start..current]` becomes `listSlice other run_start current`.
* `diff_in_place` wraps the visitor in `Ok` and `.unwrap()`s the result; the
  potential panic of `unwrap` is modelled by `Option` (`none` = panic).
-/

/-- Run state of the scan loop: mirrors `enum DiffState { Same, Different(usize) }`. -/
inductive DiffState where
  | Same : DiffState
  | Different : Nat → DiffState
deriving DecidableEq, Repr

/-- Rust slice `&b[lo..hi]` of a list. -/
def listSlice {α : Type} (b : List α) (lo hi : Nat) : List α :=
  (b.drop lo).take (hi - lo)

/-- The body of `try_diff_in_place`: the `for (current, (left, right))` loop over
`self.iter().zip(other.iter()).enumerate()`, carrying `run_state` and the
visitor state.  The four match arms mirror the Rust `match (run_state, left == right)`
(the Rust `_ => {}` wildcard covers the last two arms, which leave the state
unchanged); after the loop the Rust function returns `Ok(())` with no
trailing-run flush, which the `[]` case mirrors by returning `Except.ok s`. -/
def tryDiffGo {α σ ε : Type} [DecidableEq α] (b : List α)
    (func : σ → Nat → List α → Except ε σ) :
    List (α × α) → Nat → DiffState → σ → Except ε σ
  | [], _, _, s => Except.ok s
  | (left, right) :: rest, current, runState, s =>
    if left = right then
      match runState with
      | DiffState.Different runStart =>
        match func s runStart (listSlice b runStart current) with
        | Except.error e => Except.error e
        | Except.ok s2 => tryDiffGo b func rest (current + 1) DiffState.Same s2
      | DiffState.Same => tryDiffGo b func rest (current + 1) DiffState.Same s
    else
      match runState with
      | DiffState.Same => tryDiffGo b func rest (current + 1) (DiffState.Different current) s
      | DiffState.Different runStart =>
        tryDiffGo b func rest (current + 1) (DiffState.Different runStart) s

/-- Model of `<[T; N] as DiffInPlace<T, N>>::try_diff_in_place(self, other, func)`. -/
def try_diff_in_place {α σ ε : Type} [DecidableEq α] (a b : List α)
    (func : σ → Nat → List α → Except ε σ) (s : σ) : Except ε σ :=
  tryDiffGo b func (a.zip b) 0 DiffState.Same s

/-- Model of `diff_in_place`, defined—exactly as in the source—by wrapping the
infallible visitor to always return `Ok(())` (error type `()`), calling
`try_diff_in_place`, and `.unwrap()`-ing; `none` models the `unwrap` panic. -/
def diff_in_place {α σ : Type} [DecidableEq α] (a b : List α)
    (func : σ → Nat → List α → σ) (s : σ) : Option σ :=
  match try_diff_in_place a b (fun st i d => (Except.ok (func st i d) : Except Unit σ)) s with
  | Except.ok s2 => some s2
  | Except.error _ => none

/-- Visitor that records every invocation `(idx, diff)` in its state and never fails. -/
def recordVisitor {α : Type} :
    List (Nat × List α) → Nat → List α → Except Unit (List (Nat × List α)) :=
  fun tr i d => Except.ok (tr ++ [(i, d)])

/-- Observable invocation trace of `try_diff_in_place` under a recording,
never-failing visitor: the list of `(start index, slice)` visitor calls in order. -/
def tryDiffTrace {α : Type} [DecidableEq α] (a b : List α) : List (Nat × List α) :=
  match try_diff_in_place a b recordVisitor [] with
  | Except.ok tr => tr
  | Except.error _ => []

/-- Pure companion of `tryDiffGo`: the list of `(run_start, slice)` visitor
invocations the loop performs, independent of any visitor. -/
def runsGo {α : Type} [DecidableEq α] (b : List α) :
    List (α × α) → Nat → DiffState → List (Nat × List α)
  | [], _, _ => []
  | (left, right) :: rest, current, runState =>
    if left = right then
      match runState with
      | DiffState.Different runStart =>
        (runStart, listSlice b runStart current) :: runsGo b rest (current + 1) DiffState.Same
      | DiffState.Same => runsGo b rest (current + 1) DiffState.Same
    else
      match runState with
      | DiffState.Same => runsGo b rest (current + 1) (DiffState.Different current)
      | DiffState.Different runStart => runsGo b rest (current + 1) (DiffState.Different runStart)

/-- The runs reported by one call of `try_diff_in_place a b`. -/
def runs {α : Type} [DecidableEq α] (a b : List α) : List (Nat × List α) :=
  runsGo b (a.zip b) 0 DiffState.Same

/-- Early-exit fold of a fallible visitor over a list of runs: invoke the
visitor on each run in order, stop at the first failure and return it. -/
def foldE {α σ ε : Type} (func : σ → Nat → List α → Except ε σ) :
    σ → List (Nat × List α) → Except ε σ
  | s, [] => Except.ok s
  | s, (i, d) :: rest =>
    match func s i d with
    | Except.error e => Except.error e
    | Except.ok s2 => foldE func s2 rest

/-- Overlay one reported run onto a copy of `a`: overwrite positions
`s .. s + d.length` with `d`. -/
def overlayRun {α : Type} (c : List α) (s : Nat) (d : List α) : List α :=
  c.take s ++ d ++ c.drop (s + d.length)

/-- Overlay all reported runs, in order, onto a copy of `a`. -/
def overlay {α : Type} (c : List α) (tr : List (Nat × List α)) : List α :=
  tr.foldl (fun c2 p => overlayRun c2 p.1 p.2) c

/-- Pure fold of an infallible visitor over a list of runs. -/
def foldRuns {α σ : Type} (f : σ → Nat → List α → σ) (s : σ) (l : List (Nat × List α)) : σ :=
  l.foldl (fun st p => f st p.1 p.2) s

/-- Visitor scripted by `resp`: on its `k`-th invocation (0-based, counted in
the first state component) it fails with `resp k` if that is `some e`, else
succeeds; every invocation made, including a failing one, is appended to the
second state component, so the trace of performed invocations is observable in
both the success and the failure value. -/
def scriptedVisitor {α ε : Type} (resp : Nat → Option ε) :
    Nat × List (Nat × List α) → Nat → List α →
      Except (ε × List (Nat × List α)) (Nat × List (Nat × List α)) :=
  fun st i d =>
    match resp st.1 with
    | some e => Except.error (e, st.2 ++ [(i, d)])
    | none => Except.ok (st.1 + 1, st.2 ++ [(i, d)])

/-- Loop invariant carried by `run_state` at position `current`: in state `Same`
the previous index (if any) compared equal; in state `Different runStart` the
run started strictly before `current`, every index from `runStart` up to
`current` compares different, and the index before `runStart` (if any)
compared equal. -/
def stInv {α : Type} (a b : List α) (current : Nat) : DiffState → Prop
  | DiffState.Same => current = 0 ∨ a[current - 1]? = b[current - 1]?
  | DiffState.Different runStart =>
      runStart < current ∧
      (∀ i, runStart ≤ i → i < current → a[i]? ≠ b[i]?) ∧
      (runStart = 0 ∨ a[runStart - 1]? = b[runStart - 1]?)

/-- Lower bound carried by the state: no run reported from here on can start
before `current` (state `Same`) resp. before the pending `runStart`. -/
def stLow (current : Nat) : DiffState → Nat
  | DiffState.Same => current
  | DiffState.Different runStart => runStart

/-- Key refinement: running the loop with a visitor equals the early-exit fold
of that visitor over the pure run list. -/
theorem tryDiffGo_eq_foldE {α σ ε : Type} [DecidableEq α] (b : List α)
    (func : σ → Nat → List α → Except ε σ) :
    ∀ (pairs : List (α × α)) (current : Nat) (st : DiffState) (s : σ),
      tryDiffGo b func pairs current st s = foldE func s (runsGo b pairs current st) := by
  intro pairs
  induction pairs with
  | nil => intro current st s; rfl
  | cons p rest ih =>
    intro current st s
    obtain ⟨left, right⟩ := p
    by_cases h : left = right
    · cases st with
      | Same => simp [tryDiffGo, runsGo, h, ih]
      | Different runStart =>
        simp only [tryDiffGo, runsGo, if_pos h, foldE]
        cases func s runStart (listSlice b runStart current) with
        | error e => rfl
        | ok s2 => exact ih (current + 1) DiffState.Same s2
    · cases st with
      | Same => simp [tryDiffGo, runsGo, h, ih]
      | Different runStart => simp [tryDiffGo, runsGo, h, ih]

/-- Specialisation to the public entry point. -/
theorem try_diff_eq_foldE {α σ ε : Type} [DecidableEq α] (a b : List α)
    (func : σ → Nat → List α → Except ε σ) (s : σ) :
    try_diff_in_place a b func s = foldE func s (runs a b) :=
  tryDiffGo_eq_foldE b func (a.zip b) 0 DiffState.Same s

/-- The recording visitor never fails and accumulates exactly the run list. -/
theorem foldE_recordVisitor {α : Type} :
    ∀ (l tr : List (Nat × List α)), foldE recordVisitor tr l = Except.ok (tr ++ l) := by
  intro l
  induction l with
  | nil => intro tr; simp [foldE]
  | cons p rest ih =>
    intro tr
    obtain ⟨i, d⟩ := p
    simp [foldE, recordVisitor, ih]

/-- The observable trace is exactly the pure run list. -/
theorem tryDiffTrace_eq_runs {α : Type} [DecidableEq α] (a b : List α) :
    tryDiffTrace a b = runs a b := by
  unfold tryDiffTrace
  rw [try_diff_eq_foldE, foldE_recordVisitor]
  simp

/-- Wrapping an infallible visitor in `Except.ok` makes `foldE` a pure fold. -/
theorem foldE_ok_wrap {α σ : Type} (f : σ → Nat → List α → σ) :
    ∀ (l : List (Nat × List α)) (s : σ),
      foldE (fun st i d => (Except.ok (f st i d) : Except Unit σ)) s l =
        Except.ok (foldRuns f s l) := by
  intro l
  induction l with
  | nil => intro s; rfl
  | cons p rest ih =>
    intro s
    obtain ⟨i, d⟩ := p
    simp [foldE, foldRuns] at ih ⊢
    exact ih (f s i d)

/-- Scanning two equal lists never leaves the `Same` state and reports nothing. -/
theorem runsGo_zip_self {α : Type} [DecidableEq α] (b : List α) :
    ∀ (t : List α) (current : Nat), runsGo b (t.zip t) current DiffState.Same = [] := by
  intro t
  induction t with
  | nil => intro current; rfl
  | cons x t2 ih =>
    intro current
    have hstep : runsGo b ((x, x) :: t2.zip t2) current DiffState.Same
        = runsGo b (t2.zip t2) (current + 1) DiffState.Same := by
      simp [runsGo]
    rw [List.zip_cons_cons, hstep, ih]

/-- C1: the claim fails on the code.  At the crate's own doc-example input
(`a = [0;10]`, `b = [0,0,1,2,0,0,0,3,4,5]`) the arrays differ at every index
from 7 through 9, so after the last index the traversal state is a differing
run that started at 7 — yet the visitor is invoked only with `(2, [1,2])`:
the loop ends and `try_diff_in_place` returns without flushing the trailing
run, although the crate's own doc comment promises the call `7: [3, 4, 5]`. -/
theorem trailing_run_not_flushed :
    tryDiffTrace ([0,0,0,0,0,0,0,0,0,0] : List Nat) [0,0,1,2,0,0,0,3,4,5] = [(2, [1, 2])] ∧
    (∀ i, i < 10 → 7 ≤ i →
      ([0,0,0,0,0,0,0,0,0,0] : List Nat)[i]? ≠ [0,0,1,2,0,0,0,3,4,5][i]?) := by
  decide

/-- C2: the claim fails on the code.  Overlaying the reported runs onto a copy
of `a` does not reconstruct `b` when a differing run reaches the last index:
for the doc-example input the overlay misses the trailing run `7..10`. -/
theorem overlay_fails_on_trailing_run :
    overlay ([0,0,0,0,0,0,0,0,0,0] : List Nat)
        (tryDiffTrace ([0,0,0,0,0,0,0,0,0,0] : List Nat) [0,0,1,2,0,0,0,3,4,5])
      = [0,0,1,2,0,0,0,0,0,0] ∧
    ([0,0,1,2,0,0,0,0,0,0] : List Nat) ≠ [0,0,1,2,0,0,0,3,4,5] := by
  decide

/-- C4: the claim fails on the code.  For forty zeros against forty ones the
whole range is one differing run that never terminates inside the loop, and
since the code has no post-loop flush the visitor is invoked zero times, not
once — `test_fully_different` in the source passes only vacuously. -/
theorem fully_different_no_invocation :
    tryDiffTrace (List.replicate 40 (0 : Nat)) (List.replicate 40 1) = [] ∧
    diff_in_place (List.replicate 40 (0 : Nat)) (List.replicate 40 1)
      (fun (tr : List (Nat × List Nat)) i d => tr ++ [(i, d)]) [] = some [] := by
  decide

/-- C5: the claim fails on the code.  On Scenario 4's input the code reports
only the two runs that are terminated by an equal pair, `(0, [1..10])` and
`(20, [11..15])`; the third expected invocation `(39, [20])` is a trailing run
and is never reported (`test_multiple_different` checks only the calls that
happen, so it passes with two calls). -/
theorem scenario4_only_two_invocations :
    tryDiffTrace (List.replicate 40 (0 : Nat))
        ([1,2,3,4,5,6,7,8,9,10] ++ List.replicate 10 0 ++ [11,12,13,14,15]
          ++ List.replicate 14 0 ++ [20])
      = [(0, [1,2,3,4,5,6,7,8,9,10]), (20, [11,12,13,14,15])] := by
  decide

/-- C9: on two empty arrays the zipped iterator is empty, so the loop body
never runs: every visitor is invoked zero times and the call returns `Ok(())`. -/
theorem empty_arrays_ok {α σ ε : Type} [DecidableEq α]
    (func : σ → Nat → List α → Except ε σ) (s : σ) :
    try_diff_in_place ([] : List α) [] func s = Except.ok s ∧
    tryDiffTrace ([] : List α) [] = [] :=
  ⟨rfl, rfl⟩

/-- C6: on element-wise equal arrays of equal length the state never leaves
`Same`, so both entry points invoke the visitor zero times and succeed with the
visitor state untouched. -/
theorem equal_arrays_no_invocations {α : Type} [DecidableEq α] (a b : List α)
    (hlen : a.length = b.length) (helem : ∀ i, i < a.length → a[i]? = b[i]?) :
    (∀ (σ ε : Type) (func : σ → Nat → List α → Except ε σ) (s : σ),
        try_diff_in_place a b func s = Except.ok s) ∧
    (∀ (σ : Type) (f : σ → Nat → List α → σ) (s : σ), diff_in_place a b f s = some s) ∧
    tryDiffTrace a b = [] := by
  have hab : a = b := by
    apply List.ext_getElem?
    intro i
    by_cases hi : i < a.length
    · exact helem i hi
    · rw [List.getElem?_eq_none (Nat.le_of_not_lt hi),
        List.getElem?_eq_none (by omega)]
  subst hab
  have hruns : runs a a = [] := runsGo_zip_self a a 0
  refine ⟨?_, ?_, ?_⟩
  · intro σ ε func s
    rw [try_diff_eq_foldE, hruns]
    rfl
  · intro σ f s
    unfold diff_in_place
    rw [try_diff_eq_foldE, hruns]
    rfl
  · rw [tryDiffTrace_eq_runs, hruns]

/-- Witness for C6 at a concrete input. -/
theorem equal_arrays_no_invocations_witness :
    (([0,1] : List Nat).length = [0,1].length) ∧ tryDiffTrace ([0,1] : List Nat) [0,1] = [] :=
  ⟨rfl, (equal_arrays_no_invocations [0,1] [0,1] rfl (fun _ _ => rfl)).2.2⟩

/-- C8: the infallible entry point is observationally equal to the fallible one
under the always-`Ok` wrapped visitor: for every visitor state, both produce
`some`/`Ok` of the same pure fold of the visitor over the same run list (same
invocations, same order), and the internal `unwrap` never panics. -/
theorem diff_in_place_refines_try {α σ : Type} [DecidableEq α] (a b : List α)
    (f : σ → Nat → List α → σ) (s : σ) :
    diff_in_place a b f s = some (foldRuns f s (runs a b)) ∧
    try_diff_in_place a b (fun st i d => (Except.ok (f st i d) : Except Unit σ)) s
      = Except.ok (foldRuns f s (runs a b)) := by
  have h := try_diff_eq_foldE a b (fun st i d => (Except.ok (f st i d) : Except Unit σ)) s
  rw [foldE_ok_wrap] at h
  refine ⟨?_, h⟩
  unfold diff_in_place
  rw [h]

/-- A scripted visitor that never fails lets `foldE` run to completion,
recording every run. -/
theorem foldE_scripted_ok {α ε : Type} (resp : Nat → Option ε) :
    ∀ (l : List (Nat × List α)) (c : Nat) (tr : List (Nat × List α)),
      (∀ j, j < l.length → resp (c + j) = none) →
      foldE (scriptedVisitor resp) (c, tr) l = Except.ok (c + l.length, tr ++ l) := by
  intro l
  induction l with
  | nil => intro c tr h; simp [foldE]
  | cons p rest ih =>
    intro c tr h
    obtain ⟨i, d⟩ := p
    have h0 : resp c = none := by simpa using h 0 (Nat.succ_pos rest.length)
    simp only [foldE, scriptedVisitor, h0]
    rw [ih (c + 1) (tr ++ [(i, d)]) ?_]
    · have hc : c + 1 + rest.length = c + (rest.length + 1) := by omega
      rw [hc, List.append_assoc]
      rfl
    · intro j hj
      have hc : c + 1 + j = c + (j + 1) := by omega
      rw [hc]
      exact h (j + 1) (by simpa using Nat.succ_lt_succ hj)

/-- A scripted visitor that first fails on its `k`-th invocation makes `foldE`
return that failure, having performed exactly the first `k + 1` invocations. -/
theorem foldE_scripted_err {α ε : Type} (resp : Nat → Option ε) :
    ∀ (l : List (Nat × List α)) (k c : Nat) (tr : List (Nat × List α)) (e : ε),
      (∀ j, j < k → resp (c + j) = none) → resp (c + k) = some e → k < l.length →
      foldE (scriptedVisitor resp) (c, tr) l = Except.error (e, tr ++ l.take (k + 1)) := by
  intro l
  induction l with
  | nil =>
    intro k c tr e hj hk hlen
    exact absurd hlen (by simp)
  | cons p rest ih =>
    intro k c tr e hj hk hlen
    obtain ⟨i, d⟩ := p
    cases k with
    | zero =>
      have h0 : resp c = some e := by simpa using hk
      simp [foldE, scriptedVisitor, h0]
    | succ k2 =>
      have h0 : resp c = none := by simpa using hj 0 (Nat.succ_pos k2)
      simp only [foldE, scriptedVisitor, h0]
      rw [ih k2 (c + 1) (tr ++ [(i, d)]) e ?_ ?_ ?_]
      · rw [List.take_succ_cons, List.append_assoc]
        rfl
      · intro j hjlt
        have hc : c + 1 + j = c + (j + 1) := by omega
        rw [hc]
        exact hj (j + 1) (Nat.succ_lt_succ hjlt)
      · have hc : c + 1 + k2 = c + (k2 + 1) := by omega
        rw [hc]
        exact hk
      · exact Nat.lt_of_succ_lt_succ (by simpa using hlen)

/-- C7: failure propagation.  If the scripted visitor succeeds on its first `k`
invocations and fails with `e` on the `k`-th (0-based), and at least `k + 1`
runs exist, then `try_diff_in_place` returns exactly that failure and the
invocations performed are exactly the first `k + 1` runs — none after the
failing one; if the visitor never fails, the call returns success having
performed every run. -/
theorem try_diff_failure_propagation {α ε : Type} [DecidableEq α] (a b : List α)
    (resp : Nat → Option ε) :
    (∀ k e, (∀ j, j < k → resp j = none) → resp k = some e → k < (runs a b).length →
        try_diff_in_place a b (scriptedVisitor resp) (0, []) =
          Except.error (e, (runs a b).take (k + 1))) ∧
    ((∀ j, j < (runs a b).length → resp j = none) →
        try_diff_in_place a b (scriptedVisitor resp) (0, []) =
          Except.ok ((runs a b).length, runs a b)) := by
  constructor
  · intro k e hj hk hlen
    rw [try_diff_eq_foldE]
    have h := foldE_scripted_err resp (runs a b) k 0 [] e
      (by simpa using hj) (by simpa using hk) hlen
    simpa using h
  · intro h
    rw [try_diff_eq_foldE]
    have h2 := foldE_scripted_ok resp (runs a b) 0 [] (by simpa using h)
    simpa using h2

/-- Witness for C7 at a concrete input: on `a = [0,0]`, `b = [1,0]` there is one
run `(0, [1])`; a visitor failing immediately with `37` aborts the call with
exactly that failure after exactly one invocation. -/
theorem try_diff_failure_propagation_witness :
    (0 < (runs ([0,0] : List Nat) [1,0]).length) ∧
    try_diff_in_place ([0,0] : List Nat) [1,0]
        (scriptedVisitor (fun _ => some 37)) (0, []) =
      Except.error (37, (runs ([0,0] : List Nat) [1,0]).take 1) :=
  ⟨by decide,
    (try_diff_failure_propagation [0,0] [1,0] (fun _ => some 37)).1 0 37
      (fun j hjlt => absurd hjlt (Nat.not_lt_zero j)) rfl (by decide)⟩

/-- C10: determinism.  The outcome of `try_diff_in_place` depends only on the
element values of the two input arrays and on the visitor's returned values:
two calls on element-wise equal arrays with pointwise-equal visitors produce
equal results, and their recorded invocation traces are identical. -/
theorem try_diff_deterministic {α σ ε : Type} [DecidableEq α]
    (a1 b1 a2 b2 : List α) (f1 f2 : σ → Nat → List α → Except ε σ) (s : σ)
    (hal : a1.length = a2.length) (hbl : b1.length = b2.length)
    (hae : ∀ i, i < a1.length → a1[i]? = a2[i]?)
    (hbe : ∀ i, i < b1.length → b1[i]? = b2[i]?)
    (hfe : ∀ st i d, f1 st i d = f2 st i d) :
    try_diff_in_place a1 b1 f1 s = try_diff_in_place a2 b2 f2 s ∧
    tryDiffTrace a1 b1 = tryDiffTrace a2 b2 := by
  have ha : a1 = a2 := by
    apply List.ext_getElem?
    intro i
    by_cases hi : i < a1.length
    · exact hae i hi
    · rw [List.getElem?_eq_none (Nat.le_of_not_lt hi), List.getElem?_eq_none (by omega)]
  have hb : b1 = b2 := by
    apply List.ext_getElem?
    intro i
    by_cases hi : i < b1.length
    · exact hbe i hi
    · rw [List.getElem?_eq_none (Nat.le_of_not_lt hi), List.getElem?_eq_none (by omega)]
  have hf : f1 = f2 := funext fun st => funext fun i => funext fun d => hfe st i d
  subst ha hb hf
  exact ⟨rfl, rfl⟩

/-- Witness for C10 at a concrete input. -/
theorem try_diff_deterministic_witness :
    (([0,1] : List Nat).length = [0,1].length) ∧
    try_diff_in_place ([0,1] : List Nat) [1,1]
        (fun (st : Nat) _ _ => (Except.ok st : Except Unit Nat)) 0 =
      try_diff_in_place ([0,1] : List Nat) [1,1]
        (fun (st : Nat) _ _ => (Except.ok st : Except Unit Nat)) 0 :=
  ⟨rfl,
    (try_diff_deterministic [0,1] [1,1] [0,1] [1,1]
      (fun st _ _ => Except.ok st) (fun st _ _ => Except.ok st) 0 rfl rfl
      (fun _ _ => rfl) (fun _ _ => rfl) (fun _ _ _ => rfl)).1⟩

/-- Extracting the element at `current` when dropping `current` elements yields
a cons cell. -/
theorem drop_cons_elim {α : Type} (z : List α) (current : Nat) (p : α) (rest : List α)
    (hp : p :: rest = z.drop current) :
    z[current]? = some p ∧ rest = z.drop (current + 1) ∧ current < z.length := by
  have hcur : current < z.length := by
    by_contra hc
    rw [List.drop_eq_nil_of_le (Nat.le_of_not_lt hc)] at hp
    exact absurd hp (by simp)
  rw [List.drop_eq_getElem_cons hcur] at hp
  obtain ⟨h1, h2⟩ := List.cons.inj hp
  exact ⟨by rw [List.getElem?_eq_getElem hcur, h1], h2, hcur⟩

/-- Length of a Rust-style slice `&b[lo..hi]` with `hi` in bounds. -/
theorem listSlice_length {α : Type} (b : List α) (lo hi : Nat) (h2 : hi ≤ b.length) :
    (listSlice b lo hi).length = hi - lo := by
  simp [listSlice]
  omega

/-- Every run reported from the current loop position starts at or after the
state's lower bound. -/
theorem runsGo_start_lb {α : Type} [DecidableEq α] (b : List α) :
    ∀ (pairs : List (α × α)) (current : Nat) (st : DiffState),
      stLow current st ≤ current →
      ∀ p ∈ runsGo b pairs current st, stLow current st ≤ p.1 := by
  intro pairs
  induction pairs with
  | nil => intro current st hlb p hmem; simp [runsGo] at hmem
  | cons q rest ih =>
    intro current st hlb p hmem
    obtain ⟨left, right⟩ := q
    by_cases heq : left = right
    · cases st with
      | Same =>
        simp only [runsGo, if_pos heq] at hmem
        have h := ih (current + 1) DiffState.Same (Nat.le_refl _) p hmem
        simp [stLow] at h ⊢
        omega
      | Different runStart =>
        simp only [runsGo, if_pos heq] at hmem
        rcases List.mem_cons.mp hmem with h1 | h1
        · subst h1
          simp [stLow]
        · have h := ih (current + 1) DiffState.Same (Nat.le_refl _) p h1
          simp [stLow] at h hlb ⊢
          omega
    · cases st with
      | Same =>
        simp only [runsGo, if_neg heq] at hmem
        have h := ih (current + 1) (DiffState.Different current) (by simp [stLow]) p hmem
        simpa [stLow] using h
      | Different runStart =>
        simp only [runsGo, if_neg heq] at hmem
        have h := ih (current + 1) (DiffState.Different runStart)
          (by simp [stLow] at hlb ⊢; omega) p hmem
        simpa [stLow] using h

/-- The loop reports pairwise-disjoint runs: each reported run ends strictly
before the next one starts. -/
theorem runsGo_pairwise {α : Type} [DecidableEq α] (a b : List α) :
    ∀ (pairs : List (α × α)) (current : Nat) (st : DiffState),
      pairs = (a.zip b).drop current →
      stLow current st ≤ current →
      List.Pairwise (fun p q => p.1 + p.2.length < q.1) (runsGo b pairs current st) := by
  intro pairs
  induction pairs with
  | nil => intro current st hp hlb; simp [runsGo]
  | cons q rest ih =>
    intro current st hp hlb
    obtain ⟨left, right⟩ := q
    obtain ⟨hget, hrest, hcur⟩ := drop_cons_elim _ current _ rest hp
    by_cases heq : left = right
    · cases st with
      | Same =>
        simp only [runsGo, if_pos heq]
        exact ih (current + 1) DiffState.Same hrest (Nat.le_refl _)
      | Different runStart =>
        simp only [runsGo, if_pos heq]
        constructor
        · intro q2 hq2
          have hq := runsGo_start_lb b rest (current + 1) DiffState.Same (Nat.le_refl _) q2 hq2
          have hblen : current ≤ b.length := by
            rw [List.length_zip a b] at hcur
            omega
          have hslen : (listSlice b runStart current).length = current - runStart :=
            listSlice_length b runStart current hblen
          simp [stLow] at hq hlb
          simp [hslen]
          omega
        · exact ih (current + 1) DiffState.Same hrest (Nat.le_refl _)
    · cases st with
      | Same =>
        simp only [runsGo, if_neg heq]
        exact ih (current + 1) (DiffState.Different current) hrest (by simp [stLow])
      | Different runStart =>
        simp only [runsGo, if_neg heq]
        exact ih (current + 1) (DiffState.Different runStart) hrest
          (by simp [stLow] at hlb ⊢; omega)

/-- Every run the loop reports is non-empty, consists solely of differing
indices, is flanked by an equal (or out-of-range-low) index on the left, and
ends strictly inside the zipped range at an index whose elements are equal. -/
theorem runsGo_mem_props {α : Type} [DecidableEq α] (a b : List α) :
    ∀ (pairs : List (α × α)) (current : Nat) (st : DiffState),
      pairs = (a.zip b).drop current →
      stInv a b current st →
      ∀ p ∈ runsGo b pairs current st,
        p.2 ≠ [] ∧
        (∀ i, p.1 ≤ i → i < p.1 + p.2.length → a[i]? ≠ b[i]?) ∧
        (p.1 = 0 ∨ a[p.1 - 1]? = b[p.1 - 1]?) ∧
        p.1 + p.2.length < (a.zip b).length ∧
        a[p.1 + p.2.length]? = b[p.1 + p.2.length]? := by
  intro pairs
  induction pairs with
  | nil => intro current st hp hinv p hmem; simp [runsGo] at hmem
  | cons q rest ih =>
    intro current st hp hinv p hmem
    obtain ⟨left, right⟩ := q
    obtain ⟨hget, hrest, hcur⟩ := drop_cons_elim _ current _ rest hp
    obtain ⟨hal, hbr⟩ := List.getElem?_zip_eq_some.mp hget
    by_cases heq : left = right
    · cases st with
      | Same =>
        simp only [runsGo, if_pos heq] at hmem
        refine ih (current + 1) DiffState.Same hrest ?_ p hmem
        right
        rw [Nat.add_sub_cancel, hal, hbr, heq]
      | Different runStart =>
        simp only [runsGo, if_pos heq] at hmem
        obtain ⟨hrs, hdif, hbefore⟩ := hinv
        have hblen : current ≤ b.length := by
          rw [List.length_zip a b] at hcur
          omega
        have hslen : (listSlice b runStart current).length = current - runStart :=
          listSlice_length b runStart current hblen
        rcases List.mem_cons.mp hmem with h1 | h1
        · subst h1
          refine ⟨?_, ?_, hbefore, ?_, ?_⟩
          · show listSlice b runStart current ≠ []
            intro hnil
            have hl := congrArg List.length hnil
            rw [hslen] at hl
            simp at hl
            omega
          · intro i h1i h2i
            simp [hslen] at h2i
            exact hdif i h1i (by omega)
          · show runStart + (listSlice b runStart current).length < (a.zip b).length
            rw [hslen]
            omega
          · show a[runStart + (listSlice b runStart current).length]?
              = b[runStart + (listSlice b runStart current).length]?
            rw [hslen]
            have hc : runStart + (current - runStart) = current := by omega
            rw [hc, hal, hbr, heq]
        · refine ih (current + 1) DiffState.Same hrest ?_ p h1
          right
          rw [Nat.add_sub_cancel, hal, hbr, heq]
    · cases st with
      | Same =>
        simp only [runsGo, if_neg heq] at hmem
        refine ih (current + 1) (DiffState.Different current) hrest ?_ p hmem
        refine ⟨Nat.lt_succ_self current, ?_, hinv⟩
        intro i h1i h2i
        have hi : i = current := by omega
        subst hi
        rw [hal, hbr]
        intro hcon
        exact heq (Option.some.inj hcon)
      | Different runStart =>
        simp only [runsGo, if_neg heq] at hmem
        obtain ⟨hrs, hdif, hbefore⟩ := hinv
        refine ih (current + 1) (DiffState.Different runStart) hrest ?_ p hmem
        refine ⟨by omega, ?_, hbefore⟩
        intro i h1i h2i
        by_cases hic : i < current
        · exact hdif i h1i hic
        · have hi : i = current := by omega
          subst hi
          rw [hal, hbr]
          intro hcon
          exact heq (Option.some.inj hcon)

/-- C3: for equal-length inputs, the reported runs have strictly increasing
start indices, are non-empty, pairwise disjoint (each run ends strictly before
the next starts), and maximal: every index inside a reported run differs,
while the index just before the run (when it exists) and the index at the
run's exclusive end (always inside `[0, N)` for a reported run) compare
equal. -/
theorem runs_invariants {α : Type} [DecidableEq α] (a b : List α)
    (hlen : a.length = b.length) :
    (∀ p ∈ runs a b, p.2 ≠ []) ∧
    List.Pairwise (fun p q => p.1 < q.1) (runs a b) ∧
    List.Pairwise (fun p q => p.1 + p.2.length < q.1) (runs a b) ∧
    (∀ p ∈ runs a b,
      (∀ i, p.1 ≤ i → i < p.1 + p.2.length → a[i]? ≠ b[i]?) ∧
      (p.1 = 0 ∨ a[p.1 - 1]? = b[p.1 - 1]?) ∧
      (p.1 + p.2.length < a.length ∧
        a[p.1 + p.2.length]? = b[p.1 + p.2.length]?)) := by
  have hmem := runsGo_mem_props a b (a.zip b) 0 DiffState.Same rfl (Or.inl rfl)
  have hpw := runsGo_pairwise a b (a.zip b) 0 DiffState.Same rfl (Nat.le_refl 0)
  have hzlen : (a.zip b).length = a.length := by
    rw [List.length_zip a b, hlen, Nat.min_self]
  refine ⟨fun p hp => (hmem p hp).1, ?_, hpw, fun p hp => ?_⟩
  · exact hpw.imp (fun h => Nat.lt_of_le_of_lt (Nat.le_add_right _ _) h)
  · obtain ⟨h1, h2, h3, h4, h5⟩ := hmem p hp
    exact ⟨h2, h3, by rw [← hzlen]; exact h4, h5⟩

/-- Witness for C3 at a concrete input with one interior run. -/
theorem runs_invariants_witness :
    (([0,1,0] : List Nat).length = [0,2,0].length) ∧
    ((∀ p ∈ runs ([0,1,0] : List Nat) [0,2,0], p.2 ≠ []) ∧
     List.Pairwise (fun p q => p.1 < q.1) (runs ([0,1,0] : List Nat) [0,2,0]) ∧
     List.Pairwise (fun p q => p.1 + p.2.length < q.1) (runs ([0,1,0] : List Nat) [0,2,0]) ∧
     (∀ p ∈ runs ([0,1,0] : List Nat) [0,2,0],
       (∀ i, p.1 ≤ i → i < p.1 + p.2.length →
         ([0,1,0] : List Nat)[i]? ≠ [0,2,0][i]?) ∧
       (p.1 = 0 ∨ ([0,1,0] : List Nat)[p.1 - 1]? = [0,2,0][p.1 - 1]?) ∧
       (p.1 + p.2.length < ([0,1,0] : List Nat).length ∧
         ([0,1,0] : List Nat)[p.1 + p.2.length]? = [0,2,0][p.1 + p.2.length]?))) :=
  ⟨rfl, runs_invariants [0,1,0] [0,2,0] rfl⟩
